import Mathlib

/-!
# Tecnologer/portfolio: the annotation-and-templating pipeline of `main.go`

A shallow embedding of `main.go` (the page generator) and of the Go standard
library routines it calls, followed by the properties of the pipeline.

Conventions of the embedding:

* a Go `[]byte` / `string` is a `List Nat` (one element per byte, each below 256
  in every value the program can hold);
* a Go `rune` is an `Int`;
* a Go `map[string][]byte` together with the order in which one `range` loop
  visits it is the list of its entries in that order (the keys of a map are
  pairwise distinct);
* a run-time panic (index out of range) is `none`;
* the external services (the chroma highlighter, the regexp engine, the Unicode
  case tables, `os.ReadDir`) are parameters of the definitions that use them;
* `getSourceFiles` and `htmlPath` take the function that joins a directory and
  a name as an argument; `filepathJoin` is `filepath.Join` itself, with `/` as
  the path separator.
-/

namespace Portfolio

/-- A Go byte slice or string: its bytes in order. -/
abbrev Bytes := List Nat

/-- The UTF-8 encoding of a code point (`utf8.AppendRune`): values outside the
Unicode range and surrogate halves are written as U+FFFD. -/
def encodeRune (r : Int) : Bytes :=
  let i := r.toNat
  if r < 0 then [0xEF, 0xBF, 0xBD]
  else if i ≤ 0x7F then [i]
  else if i ≤ 0x7FF then [0xC0 + i / 64, 0x80 + i % 64]
  else if 0x10FFFF < i ∨ (0xD800 ≤ i ∧ i ≤ 0xDFFF) then [0xEF, 0xBF, 0xBD]
  else if i ≤ 0xFFFF then [0xE0 + i / 4096, 0x80 + i / 64 % 64, 0x80 + i % 64]
  else [0xF0 + i / 262144, 0x80 + i / 4096 % 64, 0x80 + i / 64 % 64, 0x80 + i % 64]

/-- The bytes of a Lean string literal, as Go stores the same literal (UTF-8). -/
def bytesOf (s : String) : Bytes :=
  s.toList.flatMap (fun c => encodeRune (Int.ofNat c.toNat))

/-- The constant `utf8.RuneError`, U+FFFD. -/
def runeError : Int := 0xFFFD

/-- A continuation byte `0x80..0xBF`. -/
def isCont (b : Nat) : Bool := 0x80 ≤ b && b ≤ 0xBF

/-- The first rune of `p` and its width in bytes (`utf8.DecodeRune`): an empty
input gives `(RuneError, 0)` and an invalid or truncated sequence
`(RuneError, 1)`. -/
def decodeRune (p : Bytes) : Int × Nat :=
  match p with
  | [] => (runeError, 0)
  | p0 :: rest =>
    if p0 < 0x80 then (Int.ofNat p0, 1)
    else if p0 < 0xC2 ∨ 0xF4 < p0 then (runeError, 1)
    else if p0 ≤ 0xDF then
      match rest with
      | b1 :: _ =>
        if isCont b1 then (Int.ofNat (p0 % 32 * 64 + b1 % 64), 2) else (runeError, 1)
      | [] => (runeError, 1)
    else if p0 ≤ 0xEF then
      match rest with
      | b1 :: b2 :: _ =>
        let lo := if p0 = 0xE0 then 0xA0 else 0x80
        let hi := if p0 = 0xED then 0x9F else 0xBF
        if b1 < lo ∨ hi < b1 then (runeError, 1)
        else if isCont b2 then
          (Int.ofNat (p0 % 16 * 4096 + b1 % 64 * 64 + b2 % 64), 3)
        else (runeError, 1)
      | _ => (runeError, 1)
    else
      match rest with
      | b1 :: b2 :: b3 :: _ =>
        let lo := if p0 = 0xF0 then 0x90 else 0x80
        let hi := if p0 = 0xF4 then 0x8F else 0xBF
        if b1 < lo ∨ hi < b1 then (runeError, 1)
        else if isCont b2 && isCont b3 then
          (Int.ofNat (p0 % 8 * 262144 + b1 % 64 * 4096 + b2 % 64 * 64 + b3 % 64), 4)
        else (runeError, 1)
      | _ => (runeError, 1)

/-- The runes of a string with the bytes of each, as a `range` loop over a Go
string visits them; `skip` counts the bytes of the current rune still to pass. -/
def runesFrom : Nat → Bytes → List (Int × Bytes)
  | _, [] => []
  | skip + 1, _ :: cs => runesFrom skip cs
  | 0, c :: cs =>
    let d := decodeRune (c :: cs)
    (d.1, (c :: cs).take d.2) :: runesFrom (d.2 - 1) cs

/-- The runes of a string, each with the bytes it was decoded from. -/
def runes (s : Bytes) : List (Int × Bytes) := runesFrom 0 s

/-- The scanning loop of `bytes.Replace` for a non-empty `old`: at each
position not inside a match already replaced, an occurrence of `old` is
replaced by `new` and the scan goes on after it; `skip` counts the bytes of the
current occurrence still to pass. -/
def replaceScan (old new : Bytes) : Nat → Bytes → Bytes
  | _, [] => []
  | skip + 1, _ :: cs => replaceScan old new skip cs
  | 0, c :: cs =>
    if old.isPrefixOf (c :: cs) then new ++ replaceScan old new (old.length - 1) cs
    else c :: replaceScan old new 0 cs

/-- The function `bytes.ReplaceAll(s, old, new)`: every non-overlapping instance
of `old`, found left to right, is replaced by `new`; an empty `old` matches at
the beginning of the slice and after each UTF-8 sequence. -/
def replaceAll (s old new : Bytes) : Bytes :=
  if old = [] then new ++ (runes s).flatMap (fun r => r.2 ++ new)
  else replaceScan old new 0 s

/-- A fragment map in the order in which `range` visits its entries. -/
abbrev Fragments := List (Bytes × Bytes)

/-- The function `insertText` of `main.go`: one `bytes.ReplaceAll` over the
whole current text per entry of the map. -/
def insertText (rules : Fragments) (origin : Bytes) : Bytes :=
  rules.foldl (fun origin e => replaceAll origin e.1 e.2) origin

/-! ## The template engine as the specification words it -/

/-- The entry of the fragment map whose key stands at the head of `s`, if any. -/
def tokenAt (f : Fragments) (s : Bytes) : Option (Bytes × Bytes) :=
  f.find? (fun e => e.1.isPrefixOf s)

/-- One left-to-right pass over the template: a placeholder token of the map
standing at the current position is replaced by its fragment value and the scan
goes on after the token, so that inserted values are never scanned; `skip`
counts the bytes of the current token still to pass. -/
def renderScan (f : Fragments) : Nat → Bytes → Bytes
  | _, [] => []
  | skip + 1, _ :: cs => renderScan f skip cs
  | 0, c :: cs =>
    match tokenAt f (c :: cs) with
    | some e => e.2 ++ renderScan f (e.1.length - 1) cs
    | none => c :: renderScan f 0 cs

/-- Follows the specification (Render, "single pass, not recursive expansion"):
the template with each of its own placeholder tokens replaced by the fragment
value of that token. -/
def renderOnce (f : Fragments) (template : Bytes) : Bytes := renderScan f 0 template

/-- The five placeholder tokens of the fragment map built in `main`. -/
def placeholderKeys : List Bytes :=
  [bytesOf "{{code}}", bytesOf "{{file}}", bytesOf "{{go_back}}", bytesOf "{{version}}",
   bytesOf "{{title}}"]

/-- Two byte strings agree on their common length: one is a prefix of the other. -/
def clash (a b : Bytes) : Bool := a.isPrefixOf b || b.isPrefixOf a

/-- No occurrence of a key of `ks` can overlap an occurrence of a key of `ks`
other than itself: a proper non-empty tail of a key never agrees with the
beginning of a key, and two keys that agree at their beginning are equal. -/
def NonOverlapping (ks : List Bytes) : Prop :=
  (∀ k ∈ ks, k ≠ []) ∧
  ∀ k ∈ ks, ∀ k2 ∈ ks, ∀ i < k.length, clash (k.drop i) k2 = true → i = 0 ∧ k = k2

instance (ks : List Bytes) : Decidable (NonOverlapping ks) := by
  unfold NonOverlapping; infer_instance

/-! ## The annotation engine (`formatText`) -/

/-- One entry of the table `format`: the patterns and the replacement template
they share. -/
structure FormatRule where
  symbols : List String
  format : String

/-- The table `format` of `main.go`. -/
def format : List FormatRule :=
  [ { symbols :=
        ["(<span class=\"nx\">Experience<\\/span><span class=\"p\">:<\\/span>\\s*<span class=\"nf\">)(ListExperience)(<\\/span>)"],
      format := "$1<a href=\"experience.html\" title=\"Expand experience list\" class=\"nf\">$2</a>$3" },
    { symbols :=
        ["(<span class=\"nx\">ContactOptions<\\/span><span class=\"p\">:<\\/span>\\s*<span class=\"nf\">)(ListContactOptions)(<\\/span>)"],
      format := "$1<a href=\"contact.html\" title=\"See contact options\" class=\"nf\">$2</a>$3" },
    { symbols := ["(rdominguez@tecnologer.net)"],
      format := "<a href=\"mailto:${1}\" class=\"s\">${1}</a>" },
    { symbols := ["(<span class=\"s\">&#34;)(http(s)?:\\/\\/.+)(&#34;<\\/span>)"],
      format := "$1<a href=\"$2\" class=\"s\">${2}</a>$4" } ]

/-- The regexp engine as `formatText` uses it: `compile` is `regexp.Compile`
(`none` for a pattern that does not compile) and `replaceAll re src repl` is
`re.ReplaceAll(src, repl)`. -/
structure RegexEngine (Re : Type) where
  compile : String → Option Re
  replaceAll : Re → Bytes → String → Bytes

/-- The pattern `formatText` hands to `regexp.Compile` for a symbol of the
table: `fmt.Sprintf("(?mi)%s", word)`. -/
def patternOf (word : String) : String := "(?mi)" ++ word

/-- The body of the inner loop of `formatText` for one pattern: a pattern that
does not compile is logged and skipped, any other replaces all its matches in
the current content. -/
def applySymbol {Re : Type} (eng : RegexEngine Re) (fmt : String) (fileContent : Bytes)
    (word : String) : Bytes :=
  match eng.compile (patternOf word) with
  | none => fileContent
  | some reg => eng.replaceAll reg fileContent fmt

/-- The two nested loops of `formatText` over a rule table. -/
def annotate {Re : Type} (eng : RegexEngine Re) (rules : List FormatRule)
    (fileContent : Bytes) : Bytes :=
  rules.foldl (fun content f => f.symbols.foldl (applySymbol eng f.format) content) fileContent

/-- The result of `quick.Highlight`: what it wrote to the buffer and the error
it returned, if any. -/
abbrev Highlighter := Bytes → Bytes × Option String

/-- The function `formatText` of `main.go`. -/
def formatText {Re : Type} (highlight : Highlighter) (eng : RegexEngine Re)
    (fileContent : Bytes) : Bytes :=
  match highlight fileContent with
  | (_, some _) => fileContent
  | (buf, none) => annotate eng format buf

/-- Follows the specification ("a malformed rule is skipped"): the rule table
without the patterns that do not compile. -/
def compilingRules {Re : Type} (eng : RegexEngine Re) (rules : List FormatRule) :
    List FormatRule :=
  rules.map (fun f =>
    { f with symbols := f.symbols.filter (fun w => (eng.compile (patternOf w)).isSome) })

/-- Follows the specification ("applied sequentially and cumulatively"): the
compiled patterns of a rule table in declaration order, each with the
replacement template of its rule. -/
def compiledPairs {Re : Type} (eng : RegexEngine Re) (rules : List FormatRule) :
    List (Re × String) :=
  rules.flatMap (fun f =>
    f.symbols.filterMap (fun w => (eng.compile (patternOf w)).map (fun reg => (reg, f.format))))

/-! ### Group references of a replacement template -/

/-- A reference of a replacement template: a numbered one, `$n` or `${n}`, or a
named one, `$name` or `${name}`. -/
inductive GroupRef where
  | num (n : Nat)
  | named (name : List Char)
  deriving DecidableEq, Repr

/-- A character of a reference name: a letter, a digit or an underscore (for
the ASCII templates of the table this is `unicode.IsLetter`, `unicode.IsDigit`). -/
def isNameChar (c : Char) : Bool := c.isAlpha || c.isDigit || c == '_'

/-- The number a name denotes, as the loop of `extract` reads it: `none` (Go:
`-1`) for a name that is not all digits or too long. -/
def parseNum (name : List Char) : Option Nat :=
  name.foldl (fun acc c =>
    match acc with
    | none => none
    | some num =>
      if c < '0' ∨ '9' < c ∨ 100000000 ≤ num then none
      else some (num * 10 + (c.toNat - '0'.toNat))) (some 0)

/-- The function `extract` of package `regexp`: the reference at the head of
the text after a `$`, with the number of characters it takes; `none` when the
text is not a reference (empty name, missing closing brace). -/
def extract (str : List Char) : Option (GroupRef × Nat) :=
  match str with
  | [] => none
  | c :: cs =>
    let brace := c == '\x7b'
    let body := if brace then cs else c :: cs
    let name := body.takeWhile isNameChar
    if name = [] then none
    else if brace && (body.drop name.length).head? != some '\x7d' then none
    else
      let used := if brace then name.length + 2 else name.length
      let num := if name.head? = some '0' ∧ 1 < name.length then none else parseNum name
      match num with
      | some n => some (GroupRef.num n, used)
      | none => some (GroupRef.named name, used)

/-- The references `Regexp.expand` substitutes in a template, left to right:
`$$` is a literal dollar and a `$` that starts no reference is raw text; `skip`
counts the characters of the current reference still to pass. -/
def groupRefsFrom : Nat → List Char → List GroupRef
  | _, [] => []
  | skip + 1, _ :: cs => groupRefsFrom skip cs
  | 0, c :: cs =>
    if c = '$' then
      if cs.head? = some '$' then groupRefsFrom 1 cs
      else
        match extract cs with
        | some (ref, used) => ref :: groupRefsFrom used cs
        | none => groupRefsFrom 0 cs
    else groupRefsFrom 0 cs

/-- The references of a replacement template. -/
def groupRefs (template : String) : List GroupRef := groupRefsFrom 0 template.toList

/-- Where the scan of a pattern stands: in plain text, after a backslash, or
inside a bracket expression (just opened, after its `^`, further in, after a
backslash in it). -/
inductive ScanMode where
  | plain
  | escaped
  | bracketOpen
  | bracketFirst
  | bracket
  | bracketEscaped

/-- The capture groups of a pattern in RE2 syntax: an opening parenthesis that
is not escaped, not inside a bracket expression and not followed by `?`, or
that opens a named group `(?P<` / `(?<`. -/
def countGroupsFrom : ScanMode → List Char → Nat
  | _, [] => 0
  | .escaped, _ :: cs => countGroupsFrom .plain cs
  | .bracketEscaped, _ :: cs => countGroupsFrom .bracket cs
  | .bracketOpen, c :: cs =>
    if c = '^' then countGroupsFrom .bracketFirst cs
    else if c = '\\' then countGroupsFrom .bracketEscaped cs
    else countGroupsFrom .bracket cs
  | .bracketFirst, c :: cs =>
    if c = '\\' then countGroupsFrom .bracketEscaped cs
    else countGroupsFrom .bracket cs
  | .bracket, c :: cs =>
    if c = '\\' then countGroupsFrom .bracketEscaped cs
    else if c = ']' then countGroupsFrom .plain cs
    else countGroupsFrom .bracket cs
  | .plain, c :: cs =>
    if c = '\\' then countGroupsFrom .escaped cs
    else if c = '[' then countGroupsFrom .bracketOpen cs
    else if c = '(' then
      if cs.head? = some '?' ∧ cs.take 3 ≠ ['?', 'P', '<'] ∧ cs.take 2 ≠ ['?', '<'] then
        countGroupsFrom .plain cs
      else 1 + countGroupsFrom .plain cs
    else countGroupsFrom .plain cs

/-- The number of capture groups of a pattern (`Regexp.NumSubexp`). -/
def numSubexp (pattern : String) : Nat := countGroupsFrom .plain pattern.toList

/-- The reference is a number between 1 and `k`. -/
def GroupRef.inRange (k : Nat) : GroupRef → Bool
  | .num n => 1 ≤ n && n ≤ k
  | .named _ => false

/-- Every reference of the template is a number between 1 and the number of
capture groups of the pattern. -/
def refsInRange (pattern template : String) : Prop :=
  ∀ r ∈ groupRefs template, r.inRange (numSubexp pattern) = true

instance (pattern template : String) : Decidable (refsInRange pattern template) := by
  unfold refsInRange; infer_instance

/-! ## The page assembler (`main`, `getSourceFiles`) -/

/-- The Unicode case tables behind `unicode.ToUpper` and `unicode.ToLower` for
code points above ASCII (`unicode.To(unicode.UpperCase, r)` and
`unicode.To(unicode.LowerCase, r)`). -/
structure CaseTables where
  upper : Int → Int
  lower : Int → Int

/-- The function `unicode.ToUpper`. -/
def unicodeToUpper (tb : CaseTables) (r : Int) : Int :=
  if r ≤ 0x7F then (if 0x61 ≤ r ∧ r ≤ 0x7A then r - 0x20 else r) else tb.upper r

/-- The function `unicode.ToLower`. -/
def unicodeToLower (tb : CaseTables) (r : Int) : Int :=
  if r ≤ 0x7F then (if 0x41 ≤ r ∧ r ≤ 0x5A then r + 0x20 else r) else tb.lower r

/-- The test of the first loop of `strings.Map`: the rune is its own image and
is not the U+FFFD an invalid byte reads as. -/
def keptByMap (mapping : Int → Int) (r : Int × Bytes) : Bool :=
  mapping r.1 == r.1 && (r.1 != runeError || r.2.length != 1)

/-- The function `strings.Map`: the string is kept as it is up to the first
rune the mapping changes (an invalid byte reads as U+FFFD and counts as
changed); from there on every rune is replaced by its image, written in UTF-8,
and a rune with a negative image is dropped. -/
def stringsMap (mapping : Int → Int) (s : Bytes) : Bytes :=
  ((runes s).takeWhile (keptByMap mapping)).flatMap (fun r => r.2) ++
    ((runes s).dropWhile (keptByMap mapping)).flatMap
      (fun r => if 0 ≤ mapping r.1 then encodeRune (mapping r.1) else [])

/-- The function `strings.ToUpper`: byte by byte on an ASCII string, and
`strings.Map(unicode.ToUpper, s)` on any other. -/
def stringsToUpper (tb : CaseTables) (s : Bytes) : Bytes :=
  if s.all (fun c => c < 0x80) then
    if s.any (fun c => 0x61 ≤ c && c ≤ 0x7A) then
      s.map (fun c => if 0x61 ≤ c ∧ c ≤ 0x7A then c - 0x20 else c)
    else s
  else stringsMap (unicodeToUpper tb) s

/-- The function `strings.ToLower`: byte by byte on an ASCII string, and
`strings.Map(unicode.ToLower, s)` on any other. -/
def stringsToLower (tb : CaseTables) (s : Bytes) : Bytes :=
  if s.all (fun c => c < 0x80) then
    if s.any (fun c => 0x41 ≤ c && c ≤ 0x5A) then
      s.map (fun c => if 0x41 ≤ c ∧ c ≤ 0x5A then c + 0x20 else c)
    else s
  else stringsMap (unicodeToLower tb) s

/-- The conversion `string(b)` of a byte: the UTF-8 text of the code point `b`. -/
def stringOfByte (b : Nat) : Bytes := encodeRune (Int.ofNat b)

/-- The value of `titlePage` in `main`:
`strings.ToUpper(string(file.name[0])) + strings.ToLower(string(file.name[1:]))`;
`file.name[0]` panics on an empty name. -/
def titlePage (tb : CaseTables) (name : Bytes) : Option Bytes :=
  match name with
  | [] => none
  | b :: rest => some (stringsToUpper tb (stringOfByte b) ++ stringsToLower tb rest)

/-- The value `main` stores under the key `{{title}}`. -/
def titleFragment (tb : CaseTables) (name : Bytes) : Option Bytes :=
  (titlePage tb name).map (fun t => bytesOf "Tecnologer | " ++ t)

/-- Follows the specification ("capitalizing the first letter of the document
name and lower-casing the remainder, prefixed with a fixed site label"): the
first letter is the first character of the name. -/
def titleOfSpec (tb : CaseTables) (name : Bytes) : Bytes :=
  let w := (decodeRune name).2
  bytesOf "Tecnologer | " ++ stringsToUpper tb (name.take w) ++ stringsToLower tb (name.drop w)

/-- The function `homeIcon` of `main.go`. -/
def homeIcon : Bytes :=
  bytesOf ("<a href=\"index.html\" class=\"icon-link\" title=\"return to home\">\n" ++
    "\t\t<svg xmlns=\"http://www.w3.org/2000/svg\" x=\"0px\" y=\"0px\" width=\"30\" height=\"30\" viewBox=\"0 -5 50 50\">\n" ++
    "    <path d=\"M 25 1.0507812 C 24.7825 1.0507812 24.565859 1.1197656 24.380859 1.2597656 L 1.3808594 19.210938 C 0.95085938 19.550938 0.8709375 20.179141 1.2109375 20.619141 C 1.5509375 21.049141 2.1791406 21.129062 2.6191406 20.789062 L 4 19.710938 L 4 46 C 4 46.55 4.45 47 5 47 L 19 47 L 19 29 L 31 29 L 31 47 L 45 47 C 45.55 47 46 46.55 46 46 L 46 19.710938 L 47.380859 20.789062 C 47.570859 20.929063 47.78 21 48 21 C 48.3 21 48.589063 20.869141 48.789062 20.619141 C 49.129063 20.179141 49.049141 19.550938 48.619141 19.210938 L 25.619141 1.2597656 C 25.434141 1.1197656 25.2175 1.0507812 25 1.0507812 z M 35 5 L 35 6.0507812 L 41 10.730469 L 41 5 L 35 5 z\"></path>\n" ++
    "</svg>\n" ++
    "\t</a>")

/-- The value of `goBack` in `main`: empty for the home document `me`. -/
def goBackOf (name : Bytes) : Bytes :=
  if name ≠ bytesOf "me" then homeIcon else []

/-- The value of `htmlPath` in `main` before the directory is joined to it:
`index` for the home document `me`, the document name otherwise. -/
def htmlStem (name : Bytes) : Bytes :=
  if name ≠ bytesOf "me" then name else bytesOf "index"

/-- The backtracking loop of `filepath.Clean` at a `..` element, run over the
reversed output buffer: the last byte goes, and bytes go on going while the
buffer is longer than `dotdot` and the byte just dropped is not a separator. -/
def backtrackFrom (dotdot : Nat) : Bytes → Bytes
  | [] => []
  | c :: cs => if dotdot < cs.length ∧ c ≠ 0x2F then backtrackFrom dotdot cs else cs

/-- What `filepath.Clean` does with one path element, on its output buffer and
its mark `dotdot`: an empty element and `.` are dropped, `..` removes the last
element written (or is written itself at the head of a path that is not
rooted, or is dropped at the root), any other element is written after a
separator where one is needed. -/
def endElement (rooted : Bool) (st : Bytes × Nat) (elem : Bytes) : Bytes × Nat :=
  if elem = [] ∨ elem = [0x2E] then st
  else if elem = [0x2E, 0x2E] then
    if st.2 < st.1.length then ((backtrackFrom st.2 st.1.reverse).reverse, st.2)
    else if rooted then st
    else
      ((if 0 < st.1.length then st.1 ++ [0x2F] else st.1) ++ [0x2E, 0x2E],
       ((if 0 < st.1.length then st.1 ++ [0x2F] else st.1) ++ [0x2E, 0x2E]).length)
  else
    ((if (rooted && st.1.length != 1) || (!rooted && st.1.length != 0) then st.1 ++ [0x2F]
      else st.1) ++ elem, st.2)

/-- One byte of the path in the loop of `filepath.Clean`: a separator ends the
current element, any other byte belongs to it. -/
def cleanStep (rooted : Bool) (s : (Bytes × Nat) × Bytes) (c : Nat) : (Bytes × Nat) × Bytes :=
  if c = 0x2F then (endElement rooted s.1 s.2, []) else (s.1, s.2 ++ [c])

/-- The function `filepath.Clean` (with `/` as the path separator): the
shortest path name equivalent to `path` by purely lexical processing. -/
def Clean (path : Bytes) : Bytes :=
  if path = [] then [0x2E]
  else
    let rooted := path.head? == some 0x2F
    let s := path.foldl (cleanStep rooted) ((if rooted then ([0x2F], 1) else ([], 0)), [])
    let out := (endElement rooted s.1 s.2).1
    if out = [] then [0x2E] else out

/-- The function `filepath.Join` for two elements: the elements from the first
non-empty one on, joined by a separator and cleaned; the empty string when both
are empty. -/
def filepathJoin (a b : Bytes) : Bytes :=
  if a ≠ [] then Clean (a ++ 0x2F :: b)
  else if b ≠ [] then Clean b
  else []

/-- The variable `pagePath` of `main.go`: `filepath.Join(root, "page")`. -/
def pagePath (root : Bytes) : Bytes := filepathJoin root (bytesOf "page")

/-- The path `main` writes a document to:
`fmt.Sprintf("%s.html", filepath.Join(pagePath, htmlPath))`; `join` is
`filepath.Join` and `dir` the value of `pagePath`. -/
def htmlPath (join : Bytes → Bytes → Bytes) (dir name : Bytes) : Bytes :=
  join dir (htmlStem name) ++ bytesOf ".html"

/-- The output buffer of `filepath.Clean` on a rooted path always begins with
the separator, and the mark `dotdot` stays behind it. -/
def RootKept (rooted : Bool) (st : Bytes × Nat) : Prop :=
  rooted = true → st.1.head? = some 0x2F ∧ st.2 = 1

/-- A path element proper: not empty, without a separator, and neither `.` nor
`..`. -/
def ProperElement (name : Bytes) : Prop :=
  name ≠ [] ∧ 0x2F ∉ name ∧ name ≠ [0x2E] ∧ name ≠ [0x2E, 0x2E]

instance (name : Bytes) : Decidable (ProperElement name) := by
  unfold ProperElement; infer_instance

/-- The fragment map `rules` of `main` for one document, in the order of the
map literal; `code` is `formatText(content)`. -/
def fragmentsOf (tb : CaseTables) (code version name : Bytes) : Option Fragments :=
  (titlePage tb name).map (fun t =>
    [ (bytesOf "{{code}}", code),
      (bytesOf "{{file}}", name),
      (bytesOf "{{go_back}}", goBackOf name),
      (bytesOf "{{version}}", version),
      (bytesOf "{{title}}", bytesOf "Tecnologer | " ++ t) ])

/-- The record `source` of `main.go`. -/
structure source where
  name : Bytes
  path : Bytes
  deriving DecidableEq, Repr

/-- The loop of `filepath.Ext`, run over the reversed path: it walks back from
the last byte, stops at a path separator and returns the text from the last
dot on. -/
def extFrom : Bytes → Bytes → Bytes
  | [], _ => []
  | c :: cs, acc =>
    if c = 0x2F then []
    else if c = 0x2E then c :: acc
    else extFrom cs (c :: acc)

/-- The function `filepath.Ext` (with `/` as the path separator). -/
def Ext (path : Bytes) : Bytes := extFrom path.reverse []

/-- The loop of `getSourceFiles` over the directory entries; `join` is
`filepath.Join`. -/
def sourcesOf (join : Bytes → Bytes → Bytes) (path : Bytes) (entries : List Bytes) :
    List source :=
  entries.filterMap (fun name =>
    if Ext name ≠ bytesOf ".go" then none
    else some { name := name.take (name.length - 3), path := join path name })

/-- The function `getSourceFiles` of `main.go`; `readDir` is `os.ReadDir` with
the names of the entries it returns, `none` when it fails. -/
def getSourceFiles (readDir : Bytes → Option (List Bytes)) (join : Bytes → Bytes → Bytes)
    (path : Bytes) : Option (List source) :=
  match readDir path with
  | none => none
  | some entries => some (sourcesOf join path entries)

/-! ## Scanning lemmas -/

theorem replaceScan_skip (old new : Bytes) (k : Nat) (s : Bytes) :
    replaceScan old new k s = replaceScan old new 0 (s.drop k) := by
  induction s generalizing k with
  | nil => simp [replaceScan]
  | cons c cs ih =>
    cases k with
    | zero => simp
    | succ k => simp [replaceScan, ih k]

theorem replaceScan_match (old new : Bytes) (h : old ≠ []) (rest : Bytes) :
    replaceScan old new 0 (old ++ rest) = new ++ replaceScan old new 0 rest := by
  cases old with
  | nil => exact absurd rfl h
  | cons a as =>
    have hp : (a :: as).isPrefixOf (a :: (as ++ rest)) = true := by
      rw [List.isPrefixOf_iff_prefix]; exact ⟨rest, rfl⟩
    simp only [List.cons_append, replaceScan, hp, if_true, List.length_cons,
      Nat.add_sub_cancel]
    rw [replaceScan_skip]
    simp

theorem replaceScan_step (old new : Bytes) (c : Nat) (cs : Bytes)
    (h : ¬ old <+: c :: cs) :
    replaceScan old new 0 (c :: cs) = c :: replaceScan old new 0 cs := by
  have hp : old.isPrefixOf (c :: cs) = false := by
    rw [Bool.eq_false_iff, ne_eq, List.isPrefixOf_iff_prefix]; exact h
  simp [replaceScan, hp]

theorem replaceScan_literal (old new : Bytes) (x w : Bytes)
    (h : ∀ i < x.length, ¬ old <+: x.drop i ++ w) :
    replaceScan old new 0 (x ++ w) = x ++ replaceScan old new 0 w := by
  induction x with
  | nil => simp
  | cons c cs ih =>
    have h0 := h 0 (by simp)
    simp only [List.drop_zero, List.cons_append] at h0
    rw [List.cons_append, replaceScan_step old new c (cs ++ w) h0, ih, List.cons_append]
    intro i hi
    have := h (i + 1) (by simpa using hi)
    simpa using this

theorem replaceScan_absent (old new : Bytes) (s : Bytes) (h : ¬ old <:+: s) :
    replaceScan old new 0 s = s := by
  have := replaceScan_literal old new s [] (by
    intro i _ hp
    apply h
    rw [List.append_nil] at hp
    exact hp.isInfix.trans (List.drop_suffix i s).isInfix)
  simpa [replaceScan] using this

theorem replaceAll_absent (s old new : Bytes) (h : ¬ old <:+: s) :
    replaceAll s old new = s := by
  have hne : old ≠ [] := by
    rintro rfl
    exact h List.nil_infix
  simp only [replaceAll, hne, if_false]
  exact replaceScan_absent old new s h

theorem insertText_absent (f : Fragments) (t : Bytes)
    (h : ∀ e ∈ f, ¬ e.1 <:+: t) : insertText f t = t := by
  induction f with
  | nil => rfl
  | cons e rest ih =>
    simp only [insertText, List.foldl_cons]
    rw [replaceAll_absent t e.1 e.2 (h e (List.mem_cons_self _ _))]
    exact ih (fun e2 he2 => h e2 (List.mem_cons_of_mem _ he2))

theorem renderScan_skip (f : Fragments) (k : Nat) (s : Bytes) :
    renderScan f k s = renderScan f 0 (s.drop k) := by
  induction s generalizing k with
  | nil => simp [renderScan]
  | cons c cs ih =>
    cases k with
    | zero => simp
    | succ k => simp [renderScan, ih k]

theorem tokenAt_some {f : Fragments} {s : Bytes} {e : Bytes × Bytes}
    (h : tokenAt f s = some e) : e ∈ f ∧ e.1 <+: s := by
  have h2 := List.find?_some
    (show List.find? (fun x : Bytes × Bytes => x.1.isPrefixOf s) f = some e from h)
  exact ⟨List.mem_of_find?_eq_some h, List.isPrefixOf_iff_prefix.mp h2⟩

theorem tokenAt_none {f : Fragments} {s : Bytes} :
    tokenAt f s = none ↔ ∀ e ∈ f, ¬ e.1 <+: s := by
  simp [tokenAt, List.find?_eq_none, List.isPrefixOf_iff_prefix]

theorem renderScan_zero_cons (f : Fragments) (c : Nat) (cs : Bytes) :
    renderScan f 0 (c :: cs) =
      match tokenAt f (c :: cs) with
      | some e => e.2 ++ renderScan f (e.1.length - 1) cs
      | none => c :: renderScan f 0 cs := rfl

theorem renderScan_token (f : Fragments) (e : Bytes × Bytes) (rest : Bytes)
    (hne : e.1 ≠ []) (h : tokenAt f (e.1 ++ rest) = some e) :
    renderScan f 0 (e.1 ++ rest) = e.2 ++ renderScan f 0 rest := by
  obtain ⟨k, v⟩ := e
  cases k with
  | nil => exact absurd rfl hne
  | cons a as =>
    simp only [List.cons_append] at h
    rw [List.cons_append, renderScan_zero_cons, h]
    simp only [List.length_cons, Nat.add_sub_cancel]
    rw [renderScan_skip]
    simp

theorem renderScan_step (f : Fragments) (c : Nat) (cs : Bytes)
    (h : tokenAt f (c :: cs) = none) :
    renderScan f 0 (c :: cs) = c :: renderScan f 0 cs := by
  simp [renderScan, h]

theorem renderScan_literal (f : Fragments) (x w : Bytes)
    (h : ∀ i < x.length, tokenAt f (x.drop i ++ w) = none) :
    renderScan f 0 (x ++ w) = x ++ renderScan f 0 w := by
  induction x with
  | nil => simp
  | cons c cs ih =>
    have h0 := h 0 (by simp)
    simp only [List.drop_zero, List.cons_append] at h0
    rw [List.cons_append, renderScan_step f c (cs ++ w) h0, ih, List.cons_append]
    intro i hi
    have := h (i + 1) (by simpa using hi)
    simpa using this

theorem renderScan_nil_map (t : Bytes) : renderScan [] 0 t = t := by
  have := renderScan_literal [] t [] (by intro i _; rfl)
  simpa [renderScan] using this

/-! ## Keys that cannot overlap -/

theorem clash_of_prefix_append {a k z : Bytes} (h : k <+: a ++ z) : clash a k = true := by
  rcases List.prefix_or_prefix_of_prefix h (List.prefix_append a z) with h1 | h1
  · simp [clash, List.isPrefixOf_iff_prefix.mpr h1]
  · simp [clash, List.isPrefixOf_iff_prefix.mpr h1]

theorem NonOverlapping.tail_free {ks : List Bytes} (hK : NonOverlapping ks)
    {k k2 : Bytes} (hk : k ∈ ks) (hk2 : k2 ∈ ks) {i : Nat} (hi0 : 0 < i)
    (hi : i < k.length) (z : Bytes) : ¬ k2 <+: k.drop i ++ z := by
  intro h
  have := (hK.2 k hk k2 hk2 i hi (clash_of_prefix_append h)).1
  omega

theorem NonOverlapping.same_key {ks : List Bytes} (hK : NonOverlapping ks)
    {k k2 : Bytes} (hk : k ∈ ks) (hk2 : k2 ∈ ks) {z : Bytes} (h : k2 <+: k ++ z) :
    k2 = k := by
  have hlen : 0 < k.length := List.length_pos.mpr (hK.1 k hk)
  have := hK.2 k hk k2 hk2 0 hlen (by simpa using clash_of_prefix_append h)
  exact this.2.symm

/-- The single pass leaves the tail of a key in place: a key that stands across
the end of a non-empty text `y` and the beginning of `w` still stands there
after `w` has been rendered. -/
theorem prefix_preserved {ks : List Bytes} (hK : NonOverlapping ks) (f : Fragments)
    (hf : ∀ e ∈ f, e.1 ∈ ks) {km : Bytes} (hkm : km ∈ ks) (y w : Bytes) (hy : y ≠ [])
    (h : km <+: y ++ w) : km <+: y ++ renderScan f 0 w := by
  rcases List.prefix_or_prefix_of_prefix h (List.prefix_append y w) with h1 | h1
  · exact h1.trans (List.prefix_append y _)
  · obtain ⟨x, rfl⟩ := h1
    have hx : x <+: w := (List.prefix_append_right_inj y).mp h
    obtain ⟨w2, rfl⟩ := hx
    have hylen : 0 < y.length := List.length_pos.mpr hy
    have hlit : renderScan f 0 (x ++ w2) = x ++ renderScan f 0 w2 := by
      apply renderScan_literal
      intro i hi
      rw [tokenAt_none]
      intro e he hp
      have hdrop : x.drop i = (y ++ x).drop (y.length + i) := by
        rw [List.drop_append]
      rw [hdrop] at hp
      exact hK.tail_free hkm (hf e he) (by omega) (by simp; omega) w2 hp
    rw [hlit, ← List.append_assoc]
    exact List.prefix_append _ _

theorem tokenAt_same_key {ks : List Bytes} (hK : NonOverlapping ks) (f : Fragments)
    (hf : ∀ e ∈ f, e.1 ∈ ks) {k : Bytes} (hk : k ∈ ks) (a b : Bytes) :
    tokenAt f (k ++ a) = tokenAt f (k ++ b) := by
  unfold tokenAt
  induction f with
  | nil => rfl
  | cons e rest ih =>
    have hrest : ∀ x ∈ rest, x.1 ∈ ks := fun x hx => hf x (List.mem_cons_of_mem _ hx)
    have he : e.1 ∈ ks := hf e (List.mem_cons_self _ _)
    have hp : e.1.isPrefixOf (k ++ a) = e.1.isPrefixOf (k ++ b) := by
      rw [Bool.eq_iff_iff, List.isPrefixOf_iff_prefix, List.isPrefixOf_iff_prefix]
      constructor <;> intro h
      · rw [hK.same_key hk he h]; exact List.prefix_append _ _
      · rw [hK.same_key hk he h]; exact List.prefix_append _ _
    simp only [List.find?_cons, hp, ih hrest]

theorem tokenAt_cons_miss (k1 v1 : Bytes) (rest : Fragments) (u : Bytes)
    (hp : ¬ k1 <+: u) : tokenAt ((k1, v1) :: rest) u = tokenAt rest u := by
  have hb : k1.isPrefixOf u = false := by
    rw [Bool.eq_false_iff, ne_eq, List.isPrefixOf_iff_prefix]; exact hp
  simp [tokenAt, List.find?_cons, hb]

theorem tokenAt_cons_hit (k1 v1 : Bytes) (rest : Fragments) (u : Bytes)
    (hp : k1 <+: u) : tokenAt ((k1, v1) :: rest) u = some (k1, v1) := by
  have hb : k1.isPrefixOf u = true := List.isPrefixOf_iff_prefix.mpr hp
  simp [tokenAt, List.find?_cons, hb]

/-- One pass of `bytes.ReplaceAll` for the first key followed by the single pass
for the other keys is the single pass for all keys, as long as the single-pass
result holds none of the other keys. -/
theorem render_after_replace {ks : List Bytes} (hK : NonOverlapping ks) (k1 v1 : Bytes)
    (rest : Fragments) (hk1 : k1 ∈ ks) (hrest : ∀ e ∈ rest, e.1 ∈ ks) (u : Bytes)
    (H : ∀ e ∈ rest, ¬ e.1 <:+: renderScan ((k1, v1) :: rest) 0 u) :
    renderScan rest 0 (replaceScan k1 v1 0 u) = renderScan ((k1, v1) :: rest) 0 u := by
  generalize hn : u.length = n
  induction n using Nat.strong_induction_on generalizing u with
  | _ n ih =>
    subst hn
    have hk1ne : k1 ≠ [] := hK.1 k1 hk1
    by_cases hp : k1 <+: u
    · obtain ⟨u2, rfl⟩ := hp
      have hR := renderScan_token ((k1, v1) :: rest) (k1, v1) u2 hk1ne
        (tokenAt_cons_hit k1 v1 rest _ (List.prefix_append _ _))
      have hRA := replaceScan_match k1 v1 hk1ne u2
      simp only at hR
      rw [hR] at H
      have H2 : ∀ e ∈ rest, ¬ e.1 <:+: renderScan ((k1, v1) :: rest) 0 u2 :=
        fun e he hin => H e he (hin.trans (List.suffix_append _ _).isInfix)
      have hlen : u2.length < (k1 ++ u2).length := by
        have := List.length_pos.mpr hk1ne
        simp; omega
      have IH := ih u2.length hlen u2 H2 rfl
      rw [hRA, hR, renderScan_literal rest v1, IH]
      intro i hi
      rw [tokenAt_none]
      intro e he hpre
      have hne2 : v1.drop i ≠ [] := by
        intro h0
        have := congrArg List.length h0
        simp at this; omega
      have h3 := prefix_preserved hK rest hrest (hrest e he) (v1.drop i) _ hne2 hpre
      rw [IH] at h3
      have hsuf : v1.drop i ++ renderScan ((k1, v1) :: rest) 0 u2
          <:+ v1 ++ renderScan ((k1, v1) :: rest) 0 u2 :=
        ⟨v1.take i, by rw [← List.append_assoc, List.take_append_drop]⟩
      exact H e he (h3.isInfix.trans hsuf.isInfix)
    · have htf := tokenAt_cons_miss k1 v1 rest u hp
      cases htr : tokenAt rest u with
      | none =>
        cases u with
        | nil => simp [renderScan, replaceScan]
        | cons c cs =>
          have hR := renderScan_step ((k1, v1) :: rest) c cs (htf.trans htr)
          have hRA := replaceScan_step k1 v1 c cs hp
          rw [hR] at H
          have H2 : ∀ e ∈ rest, ¬ e.1 <:+: renderScan ((k1, v1) :: rest) 0 cs :=
            fun e he hin => H e he (hin.trans (List.suffix_cons _ _).isInfix)
          have IH := ih cs.length (by simp) cs H2 rfl
          rw [hRA, hR, renderScan_step rest c, IH]
          rw [tokenAt_none]
          intro e he hpre
          have h3 := prefix_preserved hK rest hrest (hrest e he) [c] _ (by simp) hpre
          rw [IH] at h3
          exact H e he h3.isInfix
      | some e =>
        obtain ⟨he, hpe⟩ := tokenAt_some htr
        obtain ⟨u2, rfl⟩ := hpe
        have hne : e.1 ≠ [] := hK.1 _ (hrest e he)
        have hR := renderScan_token ((k1, v1) :: rest) e u2 hne (htf.trans htr)
        have hRA : replaceScan k1 v1 0 (e.1 ++ u2) = e.1 ++ replaceScan k1 v1 0 u2 := by
          apply replaceScan_literal
          intro i hi hpre
          by_cases hi0 : i = 0
          · subst hi0
            exact hp (by simpa using hpre)
          · exact hK.tail_free (hrest e he) hk1 (by omega) hi u2 hpre
        rw [hR] at H
        have H2 : ∀ e2 ∈ rest, ¬ e2.1 <:+: renderScan ((k1, v1) :: rest) 0 u2 :=
          fun e2 he2 hin => H e2 he2 (hin.trans (List.suffix_append _ _).isInfix)
        have hlen : u2.length < (e.1 ++ u2).length := by
          have := List.length_pos.mpr hne
          simp; omega
        have IH := ih u2.length hlen u2 H2 rfl
        have hRr := renderScan_token rest e (replaceScan k1 v1 0 u2) hne
          (by rw [tokenAt_same_key hK rest hrest (hrest e he) _ u2]; exact htr)
        rw [hRA, hR, hRr, IH]

theorem insertText_cons (e : Bytes × Bytes) (rest : Fragments) (t : Bytes) :
    insertText (e :: rest) t = insertText rest (replaceAll t e.1 e.2) := rfl

/-- With keys that cannot overlap, `insertText` in the order of the list is the
single pass whenever the single-pass result holds no key of the map. -/
theorem insertText_eq_renderOnce {ks : List Bytes} (hK : NonOverlapping ks) (f : Fragments)
    (hf : ∀ e ∈ f, e.1 ∈ ks) (t : Bytes)
    (H : ∀ e ∈ f, ¬ e.1 <:+: renderOnce f t) : insertText f t = renderOnce f t := by
  induction f generalizing t with
  | nil => simp [insertText, renderOnce, renderScan_nil_map]
  | cons e rest ih =>
    obtain ⟨k1, v1⟩ := e
    have hrest : ∀ x ∈ rest, x.1 ∈ ks := fun x hx => hf x (List.mem_cons_of_mem _ hx)
    have hk1 : k1 ∈ ks := hf (k1, v1) (List.mem_cons_self _ _)
    have hstep := render_after_replace hK k1 v1 rest hk1 hrest t
      (fun x hx => H x (List.mem_cons_of_mem _ hx))
    have hRA : replaceAll t k1 v1 = replaceScan k1 v1 0 t := by
      simp [replaceAll, hK.1 k1 hk1]
    rw [insertText_cons]
    simp only [renderOnce] at H ⊢
    rw [hRA, ← hstep]
    apply ih hrest
    intro x hx
    simp only [renderOnce]
    rw [hstep]
    exact H x (List.mem_cons_of_mem _ hx)

/-! ## The single pass does not depend on the order of the map -/

theorem tokenAt_perm {ks : List Bytes} (hK : NonOverlapping ks) {f g : Fragments}
    (hperm : f.Perm g) (hf : ∀ e ∈ f, e.1 ∈ ks) (hnd : (f.map Prod.fst).Nodup)
    (s : Bytes) : tokenAt f s = tokenAt g s := by
  cases hfs : tokenAt f s with
  | none =>
    symm
    rw [tokenAt_none] at hfs ⊢
    exact fun e he => hfs e (hperm.mem_iff.mpr he)
  | some e =>
    obtain ⟨he, hpe⟩ := tokenAt_some hfs
    cases hgs : tokenAt g s with
    | none =>
      rw [tokenAt_none] at hgs
      exact absurd hpe (hgs e (hperm.mem_iff.mp he))
    | some e2 =>
      obtain ⟨he2, hpe2⟩ := tokenAt_some hgs
      have he2f : e2 ∈ f := hperm.mem_iff.mpr he2
      obtain ⟨z, rfl⟩ := hpe
      have hkey : e2.1 = e.1 := hK.same_key (hf e he) (hf e2 he2f) hpe2
      rw [List.inj_on_of_nodup_map hnd he2f he hkey]

theorem renderScan_perm {ks : List Bytes} (hK : NonOverlapping ks) {f g : Fragments}
    (hperm : f.Perm g) (hf : ∀ e ∈ f, e.1 ∈ ks) (hnd : (f.map Prod.fst).Nodup)
    (k : Nat) (s : Bytes) : renderScan f k s = renderScan g k s := by
  induction s generalizing k with
  | nil => simp [renderScan]
  | cons c cs ih =>
    cases k with
    | succ k => simp only [renderScan]; exact ih k
    | zero =>
      rw [renderScan_zero_cons, renderScan_zero_cons, tokenAt_perm hK hperm hf hnd]
      cases tokenAt g (c :: cs) with
      | none => simp only; rw [ih 0]
      | some e => simp only; rw [ih]

theorem placeholderKeys_nonOverlapping : NonOverlapping placeholderKeys := by decide

theorem placeholderKeys_nodup : placeholderKeys.Nodup := by decide

/-! ## The template engine: `insertText` -/

/-- C1, counterexample: with the five placeholder keys, the template
`<{{code}}>` and the text `{{title}}` as the `{{code}}` value (a source file
that holds this text), `insertText` visiting `{{code}}` before `{{title}}`
returns `<T>`: the token inside the inserted value is expanded, where the
single pass returns `<{{title}}>`. -/
theorem insertText_rescans_inserted_value :
    List.map Prod.fst
        [(bytesOf "{{code}}", bytesOf "{{title}}"), (bytesOf "{{file}}", bytesOf "me"),
         (bytesOf "{{go_back}}", []), (bytesOf "{{version}}", bytesOf "2024.0101.0000"),
         (bytesOf "{{title}}", bytesOf "T")] = placeholderKeys ∧
    insertText
        [(bytesOf "{{code}}", bytesOf "{{title}}"), (bytesOf "{{file}}", bytesOf "me"),
         (bytesOf "{{go_back}}", []), (bytesOf "{{version}}", bytesOf "2024.0101.0000"),
         (bytesOf "{{title}}", bytesOf "T")]
        (bytesOf "<{{code}}>") ≠
      renderOnce
        [(bytesOf "{{code}}", bytesOf "{{title}}"), (bytesOf "{{file}}", bytesOf "me"),
         (bytesOf "{{go_back}}", []), (bytesOf "{{version}}", bytesOf "2024.0101.0000"),
         (bytesOf "{{title}}", bytesOf "T")]
        (bytesOf "<{{code}}>") ∧
    insertText
        [(bytesOf "{{code}}", bytesOf "{{title}}"), (bytesOf "{{file}}", bytesOf "me"),
         (bytesOf "{{go_back}}", []), (bytesOf "{{version}}", bytesOf "2024.0101.0000"),
         (bytesOf "{{title}}", bytesOf "T")]
        (bytesOf "<{{code}}>") = bytesOf "<T>" ∧
    renderOnce
        [(bytesOf "{{code}}", bytesOf "{{title}}"), (bytesOf "{{file}}", bytesOf "me"),
         (bytesOf "{{go_back}}", []), (bytesOf "{{version}}", bytesOf "2024.0101.0000"),
         (bytesOf "{{title}}", bytesOf "T")]
        (bytesOf "<{{code}}>") = bytesOf "<{{title}}>" := by
  decide

/-- C1, amended: for every template and every fragment map over the placeholder
keys, visited in any order, if the single pass over the template (each of the
template's own tokens replaced by its fragment value, inserted values not
scanned) yields a text that holds no key of the map, then `insertText` returns
exactly that text. -/
theorem insertText_single_pass (f : Fragments) (template : Bytes)
    (hkeys : ∀ e ∈ f, e.1 ∈ placeholderKeys)
    (hfree : ∀ e ∈ f, ¬ e.1 <:+: renderOnce f template) :
    insertText f template = renderOnce f template :=
  insertText_eq_renderOnce placeholderKeys_nonOverlapping f hkeys template hfree

/-- C1, witness: the end-to-end scenario of the specification. -/
theorem insertText_single_pass_witness :
    insertText
        [(bytesOf "{{code}}", bytesOf "<span>package main</span>"),
         (bytesOf "{{title}}", bytesOf "Tecnologer | Me")]
        (bytesOf "<html><title>{{title}}</title>{{code}}</html>") =
      renderOnce
        [(bytesOf "{{code}}", bytesOf "<span>package main</span>"),
         (bytesOf "{{title}}", bytesOf "Tecnologer | Me")]
        (bytesOf "<html><title>{{title}}</title>{{code}}</html>") ∧
    renderOnce
        [(bytesOf "{{code}}", bytesOf "<span>package main</span>"),
         (bytesOf "{{title}}", bytesOf "Tecnologer | Me")]
        (bytesOf "<html><title>{{title}}</title>{{code}}</html>") =
      bytesOf "<html><title>Tecnologer | Me</title><span>package main</span></html>" :=
  ⟨insertText_single_pass _ _ (by decide) (by decide), by decide⟩

/-- C2, counterexample: one fragment map over the five placeholder keys, two
orders of visiting it, two outputs for the template `<{{code}}>`: `<T>` when
`{{code}}` is visited before `{{title}}`, `<{{title}}>` when it is visited
after. -/
theorem insertText_order_matters :
    List.map Prod.fst
        [(bytesOf "{{code}}", bytesOf "{{title}}"), (bytesOf "{{file}}", bytesOf "me"),
         (bytesOf "{{go_back}}", []), (bytesOf "{{version}}", bytesOf "2024.0101.0000"),
         (bytesOf "{{title}}", bytesOf "T")] = placeholderKeys ∧
    List.Perm
        [(bytesOf "{{code}}", bytesOf "{{title}}"), (bytesOf "{{file}}", bytesOf "me"),
         (bytesOf "{{go_back}}", []), (bytesOf "{{version}}", bytesOf "2024.0101.0000"),
         (bytesOf "{{title}}", bytesOf "T")]
        [(bytesOf "{{title}}", bytesOf "T"), (bytesOf "{{code}}", bytesOf "{{title}}"),
         (bytesOf "{{file}}", bytesOf "me"), (bytesOf "{{go_back}}", []),
         (bytesOf "{{version}}", bytesOf "2024.0101.0000")] ∧
    insertText
        [(bytesOf "{{code}}", bytesOf "{{title}}"), (bytesOf "{{file}}", bytesOf "me"),
         (bytesOf "{{go_back}}", []), (bytesOf "{{version}}", bytesOf "2024.0101.0000"),
         (bytesOf "{{title}}", bytesOf "T")]
        (bytesOf "<{{code}}>") ≠
      insertText
        [(bytesOf "{{title}}", bytesOf "T"), (bytesOf "{{code}}", bytesOf "{{title}}"),
         (bytesOf "{{file}}", bytesOf "me"), (bytesOf "{{go_back}}", []),
         (bytesOf "{{version}}", bytesOf "2024.0101.0000")]
        (bytesOf "<{{code}}>") ∧
    insertText
        [(bytesOf "{{code}}", bytesOf "{{title}}"), (bytesOf "{{file}}", bytesOf "me"),
         (bytesOf "{{go_back}}", []), (bytesOf "{{version}}", bytesOf "2024.0101.0000"),
         (bytesOf "{{title}}", bytesOf "T")]
        (bytesOf "<{{code}}>") = bytesOf "<T>" ∧
    insertText
        [(bytesOf "{{title}}", bytesOf "T"), (bytesOf "{{code}}", bytesOf "{{title}}"),
         (bytesOf "{{file}}", bytesOf "me"), (bytesOf "{{go_back}}", []),
         (bytesOf "{{version}}", bytesOf "2024.0101.0000")]
        (bytesOf "<{{code}}>") = bytesOf "<{{title}}>" := by
  decide

/-- C2, amended: for every template and every fragment map whose keys are the
five distinct placeholder tokens, if the single pass over the template yields a
text that holds none of the five tokens, then folding `bytes.ReplaceAll` over
the entries in any two orders gives the same output. -/
theorem insertText_order_independent (f g : Fragments) (template : Bytes)
    (hperm : f.Perm g) (hkeys : (f.map Prod.fst).Perm placeholderKeys)
    (hfree : ∀ k ∈ placeholderKeys, ¬ k <:+: renderOnce f template) :
    insertText f template = insertText g template := by
  have hK := placeholderKeys_nonOverlapping
  have hf : ∀ e ∈ f, e.1 ∈ placeholderKeys :=
    fun e he => hkeys.mem_iff.mp (List.mem_map_of_mem Prod.fst he)
  have hg : ∀ e ∈ g, e.1 ∈ placeholderKeys := fun e he => hf e (hperm.mem_iff.mpr he)
  have hnd : (f.map Prod.fst).Nodup := hkeys.nodup_iff.mpr placeholderKeys_nodup
  have hfg : renderOnce f template = renderOnce g template :=
    renderScan_perm hK hperm hf hnd 0 template
  rw [insertText_eq_renderOnce hK f hf template (fun e he => hfree e.1 (hf e he)),
    insertText_eq_renderOnce hK g hg template
      (fun e he => by rw [← hfg]; exact hfree e.1 (hg e he)),
    hfg]

/-- C2, witness: the fragment map of a page in the order of the map literal and
in another order. -/
theorem insertText_order_independent_witness :
    insertText
        [(bytesOf "{{code}}", bytesOf "<b>x</b>"), (bytesOf "{{file}}", bytesOf "me"),
         (bytesOf "{{go_back}}", []), (bytesOf "{{version}}", bytesOf "2024.0101.0000"),
         (bytesOf "{{title}}", bytesOf "T | Me")]
        (bytesOf "<i>{{title}}</i>{{go_back}}{{code}}{{version}}") =
    insertText
        [(bytesOf "{{title}}", bytesOf "T | Me"), (bytesOf "{{version}}", bytesOf "2024.0101.0000"),
         (bytesOf "{{code}}", bytesOf "<b>x</b>"), (bytesOf "{{go_back}}", []),
         (bytesOf "{{file}}", bytesOf "me")]
        (bytesOf "<i>{{title}}</i>{{go_back}}{{code}}{{version}}") :=
  insertText_order_independent _ _ _ (by decide) (by decide) (by decide)

/-- C3: a template in which no key of the fragment map occurs comes back from
`insertText` unchanged, whatever the map and the order of its entries. -/
theorem insertText_unmatched_pass_through (f : Fragments) (t : Bytes)
    (h : ∀ e ∈ f, ¬ e.1 <:+: t) : insertText f t = t :=
  insertText_absent f t h

/-- C3, witness: the example of the specification, with a non-empty map and
with the empty map. -/
theorem insertText_unmatched_pass_through_witness :
    insertText [(bytesOf "{{title}}", bytesOf "T"), (bytesOf "{{code}}", bytesOf "c")]
        (bytesOf "a{{missing}}b") = bytesOf "a{{missing}}b" ∧
    insertText [] (bytesOf "a{{missing}}b") = bytesOf "a{{missing}}b" :=
  ⟨insertText_unmatched_pass_through _ _ (by decide),
   insertText_unmatched_pass_through [] _ (by simp)⟩

/-- C4, counterexample: no value of the map contains a key, yet rendering the
template `{{fi{{file}}}}` twice differs from rendering it once: the first
rendering is `{{file}}` (the value `le` closes a token with the template text
around it) and the second is `le`. -/
theorem insertText_not_idempotent :
    (∀ e ∈ [(bytesOf "{{code}}", bytesOf "c"), (bytesOf "{{file}}", bytesOf "le"),
         (bytesOf "{{go_back}}", []), (bytesOf "{{version}}", bytesOf "v"),
         (bytesOf "{{title}}", bytesOf "T")],
      ∀ k ∈ placeholderKeys, ¬ k <:+: e.2) ∧
    insertText
        [(bytesOf "{{code}}", bytesOf "c"), (bytesOf "{{file}}", bytesOf "le"),
         (bytesOf "{{go_back}}", []), (bytesOf "{{version}}", bytesOf "v"),
         (bytesOf "{{title}}", bytesOf "T")]
        (insertText
          [(bytesOf "{{code}}", bytesOf "c"), (bytesOf "{{file}}", bytesOf "le"),
         (bytesOf "{{go_back}}", []), (bytesOf "{{version}}", bytesOf "v"),
         (bytesOf "{{title}}", bytesOf "T")]
          (bytesOf "{{fi{{file}}}}")) ≠
      insertText
        [(bytesOf "{{code}}", bytesOf "c"), (bytesOf "{{file}}", bytesOf "le"),
         (bytesOf "{{go_back}}", []), (bytesOf "{{version}}", bytesOf "v"),
         (bytesOf "{{title}}", bytesOf "T")]
        (bytesOf "{{fi{{file}}}}") ∧
    insertText
        [(bytesOf "{{code}}", bytesOf "c"), (bytesOf "{{file}}", bytesOf "le"),
         (bytesOf "{{go_back}}", []), (bytesOf "{{version}}", bytesOf "v"),
         (bytesOf "{{title}}", bytesOf "T")]
        (bytesOf "{{fi{{file}}}}") = bytesOf "{{file}}" ∧
    insertText
        [(bytesOf "{{code}}", bytesOf "c"), (bytesOf "{{file}}", bytesOf "le"),
         (bytesOf "{{go_back}}", []), (bytesOf "{{version}}", bytesOf "v"),
         (bytesOf "{{title}}", bytesOf "T")]
        (bytesOf "{{file}}") = bytesOf "le" := by
  decide

/-- C4, amended: for every template `t` and every fragment map over the
placeholder keys, visited in the order `f` the first time and in the order `g`
the second time, if the single pass over `t` (each of the template's own tokens
replaced by its fragment value, inserted values not scanned) yields a text that
holds no key of the map, then rendering twice is rendering once:
`insertText g (insertText f t) = insertText f t`. -/
theorem insertText_idempotent (f g : Fragments) (t : Bytes) (hperm : g.Perm f)
    (hkeys : ∀ e ∈ f, e.1 ∈ placeholderKeys)
    (hfree : ∀ e ∈ f, ¬ e.1 <:+: renderOnce f t) :
    insertText g (insertText f t) = insertText f t := by
  have hfirst : insertText f t = renderOnce f t :=
    insertText_eq_renderOnce placeholderKeys_nonOverlapping f hkeys t hfree
  apply insertText_absent
  intro e he
  rw [hfirst]
  exact hfree e (hperm.mem_iff.mp he)

set_option maxRecDepth 4000 in
/-- C4, witness: a template that holds the `{{title}}` token twice, rendered
with the map in one order and then again with the map in the other order. -/
theorem insertText_idempotent_witness :
    insertText
        [(bytesOf "{{title}}", bytesOf "Tecnologer | Me"),
         (bytesOf "{{code}}", bytesOf "<span>package main</span>")]
        (insertText
          [(bytesOf "{{code}}", bytesOf "<span>package main</span>"),
           (bytesOf "{{title}}", bytesOf "Tecnologer | Me")]
          (bytesOf "<title>{{title}}</title>{{code}}<h1>{{title}}</h1>")) =
      insertText
        [(bytesOf "{{code}}", bytesOf "<span>package main</span>"),
         (bytesOf "{{title}}", bytesOf "Tecnologer | Me")]
        (bytesOf "<title>{{title}}</title>{{code}}<h1>{{title}}</h1>") :=
  insertText_idempotent _ _ _ (by decide) (by decide) (by decide)

/-! ## The annotation engine: `formatText` -/

theorem symbols_foldl_filter {Re : Type} (eng : RegexEngine Re) (fmt : String)
    (symbols : List String) (content : Bytes) :
    symbols.foldl (applySymbol eng fmt) content =
      (symbols.filter (fun w => (eng.compile (patternOf w)).isSome)).foldl
        (applySymbol eng fmt) content := by
  induction symbols generalizing content with
  | nil => rfl
  | cons w ws ih =>
    cases hc : eng.compile (patternOf w) with
    | none =>
      have hskip : applySymbol eng fmt content w = content := by simp [applySymbol, hc]
      simp only [List.foldl_cons, hskip, List.filter_cons, hc, Option.isSome_none]
      exact ih content
    | some reg =>
      simp only [List.foldl_cons, List.filter_cons, hc, Option.isSome_some, if_true]
      exact ih _

theorem symbols_foldl_compiled {Re : Type} (eng : RegexEngine Re) (fmt : String)
    (symbols : List String) (content : Bytes) :
    symbols.foldl (applySymbol eng fmt) content =
      (symbols.filterMap
          (fun w => (eng.compile (patternOf w)).map (fun reg => (reg, fmt)))).foldl
        (fun content p => eng.replaceAll p.1 content p.2) content := by
  induction symbols generalizing content with
  | nil => rfl
  | cons w ws ih =>
    cases hc : eng.compile (patternOf w) with
    | none =>
      have hskip : applySymbol eng fmt content w = content := by simp [applySymbol, hc]
      simp only [List.foldl_cons, hskip, List.filterMap_cons, hc, Option.map_none']
      exact ih content
    | some reg =>
      have happ : applySymbol eng fmt content w = eng.replaceAll reg content fmt := by
        simp [applySymbol, hc]
      simp only [List.foldl_cons, happ, List.filterMap_cons, hc, Option.map_some']
      exact ih _

/-- C5: for every markup and every ordered rule list, the annotation loop of
`formatText` returns what it returns on the rule list without the patterns that
do not compile, and that is the left fold of "replace all matches of the
pattern by the replacement of its rule" over the compiled patterns in
declaration order, each applied to the output of the one before. -/
theorem annotate_skips_malformed {Re : Type} (eng : RegexEngine Re)
    (rules : List FormatRule) (markup : Bytes) :
    annotate eng rules markup = annotate eng (compilingRules eng rules) markup ∧
    annotate eng rules markup =
      (compiledPairs eng rules).foldl (fun content p => eng.replaceAll p.1 content p.2)
        markup := by
  constructor
  · induction rules generalizing markup with
    | nil => rfl
    | cons f fs ih =>
      simp only [annotate, compilingRules, List.map_cons, List.foldl_cons] at ih ⊢
      rw [← symbols_foldl_filter]
      exact ih _
  · induction rules generalizing markup with
    | nil => rfl
    | cons f fs ih =>
      simp only [annotate, compiledPairs, List.flatMap_cons, List.foldl_cons,
        List.foldl_append] at ih ⊢
      rw [← symbols_foldl_compiled]
      exact ih _

/-- C6: when the highlighter returns an error on a file content, `formatText`
returns that content byte for byte: neither what the highlighter wrote nor any
annotation rule reaches the result. -/
theorem formatText_highlight_error {Re : Type} (highlight : Highlighter)
    (eng : RegexEngine Re) (c : Bytes) (h : (highlight c).2 ≠ none) :
    formatText highlight eng c = c := by
  unfold formatText
  rcases hc : highlight c with ⟨buf, err⟩
  cases err with
  | none => rw [hc] at h; exact absurd rfl h
  | some e => rfl

/-- C6, witness: a highlighter that writes part of its output and fails, and an
engine whose patterns all compile and erase the text they are applied to. -/
theorem formatText_highlight_error_witness :
    formatText (fun _ => (bytesOf "<pre", some "no lexer"))
        ({ compile := fun _ => some (), replaceAll := fun _ _ _ => [] } : RegexEngine Unit)
        (bytesOf "package main") = bytesOf "package main" :=
  formatText_highlight_error _ _ _ (by simp)

/-- C9: in the table `format`, every reference of a replacement template is a
number between 1 and the number of capture groups of each pattern the template
is paired with (the pattern as `formatText` compiles it), so no reference
expands to an absent group; the four rules have 3, 3, 1 and 4 groups. -/
theorem format_refs_in_range :
    (∀ f ∈ format, ∀ w ∈ f.symbols, refsInRange (patternOf w) f.format) ∧
    format.map (fun f => f.symbols.map (fun w => numSubexp (patternOf w))) =
      [[3], [3], [1], [4]] ∧
    format.map (fun f => groupRefs f.format) =
      [[.num 1, .num 2, .num 3], [.num 1, .num 2, .num 3], [.num 1, .num 1],
       [.num 1, .num 2, .num 2, .num 4]] := by
  decide

/-! ## The page assembler -/

theorem foldl_cleanStep_element (rooted : Bool) (st : Bytes × Nat) (cur x : Bytes)
    (hx : 0x2F ∉ x) : x.foldl (cleanStep rooted) (st, cur) = (st, cur ++ x) := by
  induction x generalizing cur with
  | nil => simp
  | cons c cs ih =>
    have hc : c ≠ 0x2F := fun h => hx (h ▸ List.mem_cons_self _ _)
    have hcs : 0x2F ∉ cs := fun h => hx (List.mem_cons_of_mem _ h)
    simp only [List.foldl_cons, cleanStep, if_neg hc]
    rw [ih _ hcs]
    simp

theorem endElement_proper (rooted : Bool) (st : Bytes × Nat) (x : Bytes)
    (hx : ProperElement x) :
    (endElement rooted st x).1 =
      (if (rooted && st.1.length != 1) || (!rooted && st.1.length != 0) then st.1 ++ [0x2F]
        else st.1) ++ x := by
  obtain ⟨h0, _, h1, h2⟩ := hx
  unfold endElement
  rw [if_neg (by simp [h0, h1]), if_neg h2]

theorem head_ne_separator (x : Bytes) (hx : 0x2F ∉ x) : (x.head? == some 0x2F) = false := by
  cases x with
  | nil => rfl
  | cons c cs =>
    have hc : c ≠ 0x2F := fun h => hx (h ▸ List.mem_cons_self _ _)
    simp [hc]

theorem backtrackFrom_spec (d : Nat) (rev : Bytes) (h : d < rev.length) :
    backtrackFrom d rev <:+ rev ∧ d ≤ (backtrackFrom d rev).length := by
  induction rev with
  | nil => simp at h
  | cons c cs ih =>
    unfold backtrackFrom
    split
    · rename_i hc
      obtain ⟨h1, h2⟩ := ih hc.1
      exact ⟨h1.trans (List.suffix_cons c cs), h2⟩
    · exact ⟨List.suffix_cons c cs, by simp at h; omega⟩

theorem endElement_rootKept (rooted : Bool) (st : Bytes × Nat) (elem : Bytes)
    (h : RootKept rooted st) : RootKept rooted (endElement rooted st elem) := by
  intro hr
  obtain ⟨hh, hd⟩ := h hr
  obtain ⟨c, cs, hout⟩ : ∃ c cs, st.1 = c :: cs := by
    cases hst : st.1 with
    | nil => rw [hst] at hh; simp at hh
    | cons c cs => exact ⟨c, cs, rfl⟩
  have hc : c = 0x2F := by rw [hout] at hh; simpa using hh
  unfold endElement
  split
  · exact ⟨hh, hd⟩
  · split
    · split
      · rename_i hlt
        refine ⟨?_, hd⟩
        have hlt2 : st.2 < st.1.reverse.length := by simpa using hlt
        obtain ⟨hsuf, hlen⟩ := backtrackFrom_spec st.2 st.1.reverse hlt2
        have hpre : (backtrackFrom st.2 st.1.reverse).reverse <+: st.1 := by
          have := List.reverse_prefix.mpr hsuf
          simpa using this
        obtain ⟨t, ht⟩ := hpre
        cases hb : (backtrackFrom st.2 st.1.reverse).reverse with
        | nil =>
          have h0 : (backtrackFrom st.2 st.1.reverse).length = 0 := by
            have := congrArg List.length hb
            simpa using this
          omega
        | cons b bs =>
          rw [hb, hout] at ht
          simp only [List.cons_append, List.cons.injEq] at ht
          simp [ht.1, hc]
      · exact ⟨hh, hd⟩
    · refine ⟨?_, hd⟩
      simp only [hout]
      split <;> simp [hc]

theorem foldl_cleanStep_rootKept (rooted : Bool) (path : Bytes) (s : (Bytes × Nat) × Bytes)
    (h : RootKept rooted s.1) : RootKept rooted (path.foldl (cleanStep rooted) s).1 := by
  induction path generalizing s with
  | nil => exact h
  | cons c cs ih =>
    simp only [List.foldl_cons]
    apply ih
    unfold cleanStep
    split
    · exact endElement_rootKept rooted s.1 s.2 h
    · exact h

/-- Cleaning a path that ends in a proper element, after nothing or after a
separator, leaves that element at the end of the result, behind a text that
does not depend on the element and is empty or ends in a separator. -/
theorem Clean_append_proper (pre : Bytes) (hpre : pre = [] ∨ ∃ p, pre = p ++ [0x2F]) :
    ∃ P : Bytes, (P = [] ∨ P.getLast? = some 0x2F) ∧
      ∀ x, ProperElement x → Clean (pre ++ x) = P ++ x := by
  rcases hpre with rfl | ⟨p, rfl⟩
  · refine ⟨[], Or.inl rfl, fun x hx => ?_⟩
    have hne : x ≠ [] := hx.1
    have hroot := head_ne_separator x hx.2.1
    simp only [List.nil_append, Clean, if_neg hne, hroot]
    rw [foldl_cleanStep_element _ _ _ _ hx.2.1]
    simp only [List.nil_append, Bool.false_eq_true, if_false]
    rw [endElement_proper _ _ _ hx]
    simp [hne]
  · let rooted : Bool := (p ++ [0x2F]).head? == some 0x2F
    let s0 := p.foldl (cleanStep rooted)
      ((if rooted = true then (([0x2F] : Bytes), 1) else (([] : Bytes), 0)), ([] : Bytes))
    let st := endElement rooted s0.1 s0.2
    have hkept : RootKept rooted st := by
      apply endElement_rootKept
      apply foldl_cleanStep_rootKept
      intro hr
      simp [hr]
    refine ⟨if (rooted && st.1.length != 1) || (!rooted && st.1.length != 0)
      then st.1 ++ [0x2F] else st.1, ?_, fun x hx => ?_⟩
    · split
      · right; simp
      · rename_i hcond
        cases hr : rooted with
        | false =>
          left
          simp only [hr, Bool.false_and, Bool.not_false, Bool.true_and, Bool.false_or,
            bne_iff_ne, ne_eq, Decidable.not_not] at hcond
          exact List.length_eq_zero.mp hcond
        | true =>
          right
          simp only [hr, Bool.true_and, Bool.not_true, Bool.false_and, Bool.or_false,
            bne_iff_ne, ne_eq, Decidable.not_not] at hcond
          obtain ⟨hh, _⟩ := hkept hr
          cases hst : st.1 with
          | nil => rw [hst] at hcond; simp at hcond
          | cons c cs =>
            rw [hst] at hcond hh
            have hcs : cs = [] := by
              simp at hcond
              exact hcond
            have hc : c = 0x2F := by simpa using hh
            simp [hcs, hc]
    · have hne : p ++ [0x2F] ++ x ≠ [] := by simp
      have hroot : ((p ++ [0x2F] ++ x).head? == some 0x2F) = rooted := by
        cases p <;> simp [rooted]
      have hx0 : x ≠ [] := hx.1
      simp only [Clean, if_neg hne, hroot]
      rw [List.foldl_append, List.foldl_append]
      simp only [List.foldl_cons, List.foldl_nil]
      have hstep : cleanStep rooted s0 0x2F = (st, []) := by simp [cleanStep, st]
      rw [show List.foldl (cleanStep rooted)
          ((if rooted = true then (([0x2F] : Bytes), 1) else (([] : Bytes), 0)), ([] : Bytes)) p
          = s0 from rfl, hstep, foldl_cleanStep_element _ _ _ _ hx.2.1]
      simp only [List.nil_append]
      rw [endElement_proper _ _ _ hx]
      simp [hx0]

theorem filepathJoin_proper (dir : Bytes) :
    ∃ P : Bytes, (P = [] ∨ P.getLast? = some 0x2F) ∧
      ∀ x, ProperElement x → filepathJoin dir x = P ++ x := by
  by_cases hd : dir = []
  · obtain ⟨P, hPsep, hP⟩ := Clean_append_proper [] (Or.inl rfl)
    refine ⟨P, hPsep, fun x hx => ?_⟩
    have := hP x hx
    simp only [List.nil_append] at this
    simp only [filepathJoin, hd, ne_eq, not_true_eq_false, if_false, hx.1,
      not_false_eq_true, if_true, this]
  · obtain ⟨P, hPsep, hP⟩ := Clean_append_proper (dir ++ [0x2F]) (Or.inr ⟨dir, rfl⟩)
    refine ⟨P, hPsep, fun x hx => ?_⟩
    have := hP x hx
    simp only [List.append_assoc, List.singleton_append] at this
    simp only [filepathJoin, ne_eq, hd, not_false_eq_true, if_true, this]

theorem htmlStem_proper (name : Bytes) (h : ProperElement name) :
    ProperElement (htmlStem name) := by
  unfold htmlStem
  split
  · exact h
  · decide

/-- C8, counterexample: with the page directory of the root `/srv/site`, the
documents `me` and `index` are different and are both written to
`/srv/site/page/index.html`. -/
theorem htmlPath_collision :
    bytesOf "me" ≠ bytesOf "index" ∧
    htmlPath filepathJoin (pagePath (bytesOf "/srv/site")) (bytesOf "me") =
      htmlPath filepathJoin (pagePath (bytesOf "/srv/site")) (bytesOf "index") ∧
    htmlPath filepathJoin (pagePath (bytesOf "/srv/site")) (bytesOf "me") =
      bytesOf "/srv/site/page/index.html" ∧
    htmlPath filepathJoin (pagePath (bytesOf "/srv/site")) (bytesOf "index") =
      bytesOf "/srv/site/page/index.html" := by
  decide

/-- C8, amended: for document names that are path elements proper (not empty,
without a separator, neither `.` nor `..`) and any page directory, `main`
writes each document under the file name `index.html` for the home document
`me` and `<name>.html` for any other, behind one and the same directory text
(empty or ending in a separator), and two different names get different file
names and different output paths unless one of them is `me` and the other
`index`. -/
theorem htmlPath_distinct (dir n1 n2 : Bytes) (hp1 : ProperElement n1)
    (hp2 : ProperElement n2) (hne : n1 ≠ n2)
    (h1 : ¬ (n1 = bytesOf "me" ∧ n2 = bytesOf "index"))
    (h2 : ¬ (n1 = bytesOf "index" ∧ n2 = bytesOf "me")) :
    (∃ P : Bytes, (P = [] ∨ P.getLast? = some 0x2F) ∧
      htmlPath filepathJoin dir n1 = P ++ (htmlStem n1 ++ bytesOf ".html") ∧
      htmlPath filepathJoin dir n2 = P ++ (htmlStem n2 ++ bytesOf ".html")) ∧
    htmlStem n1 ++ bytesOf ".html" ≠ htmlStem n2 ++ bytesOf ".html" ∧
    htmlPath filepathJoin dir n1 ≠ htmlPath filepathJoin dir n2 := by
  obtain ⟨P, hPsep, hP⟩ := filepathJoin_proper dir
  have e1 : htmlPath filepathJoin dir n1 = P ++ (htmlStem n1 ++ bytesOf ".html") := by
    simp only [htmlPath, hP _ (htmlStem_proper n1 hp1), List.append_assoc]
  have e2 : htmlPath filepathJoin dir n2 = P ++ (htmlStem n2 ++ bytesOf ".html") := by
    simp only [htmlPath, hP _ (htmlStem_proper n2 hp2), List.append_assoc]
  have hfile : htmlStem n1 ++ bytesOf ".html" ≠ htmlStem n2 ++ bytesOf ".html" := by
    intro h
    have hs : htmlStem n1 = htmlStem n2 := List.append_cancel_right h
    unfold htmlStem at hs
    by_cases hm1 : n1 = bytesOf "me" <;> by_cases hm2 : n2 = bytesOf "me"
    · exact hne (hm1.trans hm2.symm)
    · simp only [hm1, hm2, ne_eq, not_true_eq_false, not_false_eq_true, if_true,
        if_false] at hs
      exact h1 ⟨hm1, hs.symm⟩
    · simp only [hm1, hm2, ne_eq, not_true_eq_false, not_false_eq_true, if_true,
        if_false] at hs
      exact h2 ⟨hs, hm2⟩
    · simp only [hm1, hm2, ne_eq, not_false_eq_true, if_true] at hs
      exact hne hs
  refine ⟨⟨P, hPsep, e1, e2⟩, hfile, ?_⟩
  intro h
  rw [e1, e2] at h
  exact hfile (List.append_cancel_left h)

/-- C8, witness: the documents `me` and `about` under the page directory of the
root `/srv/site`. -/
theorem htmlPath_distinct_witness :
    (∃ P : Bytes, (P = [] ∨ P.getLast? = some 0x2F) ∧
      htmlPath filepathJoin (pagePath (bytesOf "/srv/site")) (bytesOf "me") =
        P ++ (htmlStem (bytesOf "me") ++ bytesOf ".html") ∧
      htmlPath filepathJoin (pagePath (bytesOf "/srv/site")) (bytesOf "about") =
        P ++ (htmlStem (bytesOf "about") ++ bytesOf ".html")) ∧
    htmlStem (bytesOf "me") ++ bytesOf ".html" ≠
      htmlStem (bytesOf "about") ++ bytesOf ".html" ∧
    htmlPath filepathJoin (pagePath (bytesOf "/srv/site")) (bytesOf "me") ≠
      htmlPath filepathJoin (pagePath (bytesOf "/srv/site")) (bytesOf "about") :=
  htmlPath_distinct _ _ _ (by decide) (by decide) (by decide) (by decide) (by decide)

/-- The document names `.` and `..` (the entries `..go` and `...go`) are not
written under their own names: with the root `/srv/site` they go to
`/srv/site/page.html` and `/srv/site.html`, the file names of the documents
`page` and `site`, which go to `/srv/site/page/page.html` and
`/srv/site/page/site.html`. -/
theorem htmlPath_dot_names :
    htmlPath filepathJoin (pagePath (bytesOf "/srv/site")) (bytesOf ".") =
      bytesOf "/srv/site/page.html" ∧
    htmlPath filepathJoin (pagePath (bytesOf "/srv/site")) (bytesOf "..") =
      bytesOf "/srv/site.html" ∧
    htmlPath filepathJoin (pagePath (bytesOf "/srv/site")) (bytesOf "page") =
      bytesOf "/srv/site/page/page.html" ∧
    htmlPath filepathJoin (pagePath (bytesOf "/srv/site")) (bytesOf "site") =
      bytesOf "/srv/site/page/site.html" := by
  decide

/-- The fragment map `main` builds for a document has exactly the five
placeholder tokens as keys, in the order of the map literal, and these keys
cannot overlap one another. -/
theorem fragmentsOf_keys (tb : CaseTables) (code version name : Bytes) (f : Fragments)
    (h : fragmentsOf tb code version name = some f) :
    f.map Prod.fst = placeholderKeys ∧ NonOverlapping (f.map Prod.fst) := by
  unfold fragmentsOf at h
  cases ht : titlePage tb name with
  | none => rw [ht] at h; exact absurd h (by simp)
  | some t =>
    rw [ht] at h
    simp only [Option.map_some', Option.some.injEq] at h
    subst h
    exact ⟨rfl, placeholderKeys_nonOverlapping⟩

/-- Witness of the keys of the fragment map: the home document `me`. -/
theorem fragmentsOf_keys_witness :
    List.map Prod.fst
        [(bytesOf "{{code}}", bytesOf "<pre>x</pre>"), (bytesOf "{{file}}", bytesOf "me"),
         (bytesOf "{{go_back}}", []), (bytesOf "{{version}}", bytesOf "2024.0101.0000"),
         (bytesOf "{{title}}", bytesOf "Tecnologer | Me")] = placeholderKeys ∧
    NonOverlapping (List.map Prod.fst
        [(bytesOf "{{code}}", bytesOf "<pre>x</pre>"), (bytesOf "{{file}}", bytesOf "me"),
         (bytesOf "{{go_back}}", []), (bytesOf "{{version}}", bytesOf "2024.0101.0000"),
         (bytesOf "{{title}}", bytesOf "Tecnologer | Me")]) :=
  fragmentsOf_keys ⟨fun r => r, fun r => r⟩ (bytesOf "<pre>x</pre>")
    (bytesOf "2024.0101.0000") (bytesOf "me") _ (by decide)

/-- C10, the failing input: `getSourceFiles` accepts the directory entry `.go`
(its extension is `.go`) and gives it the empty document name, on which the
title derivation of `main` panics at `file.name[0]`. -/
theorem getSourceFiles_empty_name (tb : CaseTables) (join : Bytes → Bytes → Bytes)
    (path : Bytes) :
    Ext (bytesOf ".go") = bytesOf ".go" ∧
    getSourceFiles (fun _ => some [bytesOf ".go"]) join path =
      some [{ name := [], path := join path (bytesOf ".go") }] ∧
    titlePage tb [] = none := by
  refine ⟨by decide, ?_, rfl⟩
  simp only [getSourceFiles, sourcesOf, List.filterMap_cons, List.filterMap_nil]
  rw [if_neg (by decide)]
  have hname : List.take ((bytesOf ".go").length - 3) (bytesOf ".go") = [] := by decide
  rw [hname]

/-- C7, the failing input: for the document name `é` (the entry `é.go`, bytes
`C3 A9`) `main` capitalises the byte `C3` read as the code point U+00C3 and
lower-cases the stray byte `A9`, so the title is `Tecnologer | ` followed by the
bytes of U+00C3 and U+FFFD, where the first letter capitalised is `É`
(`C3 89`). The three facts about the Unicode case tables hold of Go's. -/
theorem titleFragment_non_ascii (tb : CaseTables) (hA : tb.upper 0xC3 = 0xC3)
    (hE : tb.upper 0xE9 = 0xC9) (hR : tb.lower 0xFFFD = 0xFFFD) :
    titleFragment tb [0xC3, 0xA9] =
      some (bytesOf "Tecnologer | " ++ [0xC3, 0x83, 0xEF, 0xBF, 0xBD]) ∧
    titleOfSpec tb [0xC3, 0xA9] = bytesOf "Tecnologer | " ++ [0xC3, 0x89] := by
  have hb : stringOfByte 0xC3 = [0xC3, 0x83] := by decide
  have hr1 : runes [0xC3, 0x83] = [(0xC3, [0xC3, 0x83])] := by decide
  have hr2 : runes [0xA9] = [(0xFFFD, [0xA9])] := by decide
  have hr3 : runes [0xC3, 0xA9] = [(0xE9, [0xC3, 0xA9])] := by decide
  have hd : decodeRune [0xC3, 0xA9] = (0xE9, 2) := by decide
  have hu1 : unicodeToUpper tb 0xC3 = 0xC3 := by simp [unicodeToUpper, hA]
  have hu2 : unicodeToUpper tb 0xE9 = 0xC9 := by simp [unicodeToUpper, hE]
  have hl : unicodeToLower tb 0xFFFD = 0xFFFD := by simp [unicodeToLower, hR]
  have he1 : encodeRune 0xC3 = [0xC3, 0x83] := by decide
  have he2 : encodeRune 0xC9 = [0xC3, 0x89] := by decide
  have he3 : encodeRune 0xFFFD = [0xEF, 0xBF, 0xBD] := by decide
  have hup : stringsToUpper tb [0xC3, 0x83] = [0xC3, 0x83] := by
    simp [stringsToUpper, stringsMap, keptByMap, runeError, hr1, hu1, he1]
  have hlo : stringsToLower tb [0xA9] = [0xEF, 0xBF, 0xBD] := by
    simp [stringsToLower, stringsMap, keptByMap, runeError, hr2, hl, he3]
  have hup2 : stringsToUpper tb [0xC3, 0xA9] = [0xC3, 0x89] := by
    simp [stringsToUpper, stringsMap, keptByMap, runeError, hr3, hu2, he2]
  have hlo2 : stringsToLower tb [] = [] := by simp [stringsToLower]
  constructor
  · simp only [titleFragment, titlePage, hb, hup, hlo, Option.map_some']
    rfl
  · simp only [titleOfSpec, hd, List.take_succ_cons, List.take_zero, List.drop_succ_cons,
      List.drop_zero, hup2, hlo2, List.append_nil]

/-- C7, witness: case tables that agree with Go's on the three code points. -/
theorem titleFragment_non_ascii_witness :
    titleFragment ⟨fun r => if r = 0xE9 then 0xC9 else r, fun r => r⟩ [0xC3, 0xA9] =
      some (bytesOf "Tecnologer | " ++ [0xC3, 0x83, 0xEF, 0xBF, 0xBD]) ∧
    titleOfSpec ⟨fun r => if r = 0xE9 then 0xC9 else r, fun r => r⟩ [0xC3, 0xA9] =
      bytesOf "Tecnologer | " ++ [0xC3, 0x89] :=
  titleFragment_non_ascii _ (by decide) (by decide) (by decide)

theorem stringOfByte_ascii (b : Nat) (hb : b < 0x80) : stringOfByte b = [b] := by
  unfold stringOfByte encodeRune
  have h1 : ¬ (Int.ofNat b < 0) := by simp
  have h2 : (Int.ofNat b).toNat ≤ 0x7F := by simp; omega
  simp only [h1, h2, if_true, if_false]
  simp

theorem stringsToUpper_ascii (tb : CaseTables) (s : Bytes) (hs : ∀ c ∈ s, c < 0x80) :
    stringsToUpper tb s = s.map (fun c => if 0x61 ≤ c ∧ c ≤ 0x7A then c - 0x20 else c) := by
  have hall : s.all (fun c => decide (c < 0x80)) = true := by
    simpa [List.all_eq_true] using hs
  unfold stringsToUpper
  rw [if_pos hall]
  split
  · rfl
  · rename_i hany
    symm
    conv_rhs => rw [← List.map_id s]
    apply List.map_congr_left
    intro c hc
    have : ¬ (0x61 ≤ c ∧ c ≤ 0x7A) := by
      intro hcc
      apply hany
      rw [List.any_eq_true]
      exact ⟨c, hc, by simp [hcc.1, hcc.2]⟩
    simp [this]

theorem stringsToLower_ascii (tb : CaseTables) (s : Bytes) (hs : ∀ c ∈ s, c < 0x80) :
    stringsToLower tb s = s.map (fun c => if 0x41 ≤ c ∧ c ≤ 0x5A then c + 0x20 else c) := by
  have hall : s.all (fun c => decide (c < 0x80)) = true := by
    simpa [List.all_eq_true] using hs
  unfold stringsToLower
  rw [if_pos hall]
  split
  · rfl
  · rename_i hany
    symm
    conv_rhs => rw [← List.map_id s]
    apply List.map_congr_left
    intro c hc
    have : ¬ (0x41 ≤ c ∧ c ≤ 0x5A) := by
      intro hcc
      apply hany
      rw [List.any_eq_true]
      exact ⟨c, hc, by simp [hcc.1, hcc.2]⟩
    simp [this]

/-- Title derivation on ASCII names: for a document name whose bytes are all
ASCII, the `{{title}}` value is `Tecnologer | ` followed by the first letter
capitalised and the remainder lower-cased, which is also what the wording of
the specification gives. -/
theorem titleFragment_ascii (tb : CaseTables) (b : Nat) (rest : Bytes) (hb : b < 0x80)
    (hrest : ∀ c ∈ rest, c < 0x80) :
    titleFragment tb (b :: rest) =
      some (bytesOf "Tecnologer | " ++
        (if 0x61 ≤ b ∧ b ≤ 0x7A then b - 0x20 else b) ::
          rest.map (fun c => if 0x41 ≤ c ∧ c ≤ 0x5A then c + 0x20 else c)) ∧
    titleFragment tb (b :: rest) = some (titleOfSpec tb (b :: rest)) := by
  have hup : stringsToUpper tb [b] = [if 0x61 ≤ b ∧ b ≤ 0x7A then b - 0x20 else b] := by
    rw [stringsToUpper_ascii tb [b] (by simpa using hb)]; rfl
  have hd : decodeRune (b :: rest) = (Int.ofNat b, 1) := by
    simp only [decodeRune, if_pos hb]
  constructor
  · simp only [titleFragment, titlePage, stringOfByte_ascii b hb, hup,
      stringsToLower_ascii tb rest hrest, Option.map_some', List.singleton_append]
  · simp only [titleFragment, titlePage, stringOfByte_ascii b hb, Option.map_some',
      titleOfSpec, hd, List.take_succ_cons, List.take_zero, List.drop_succ_cons,
      List.drop_zero, List.append_assoc]

/-- Witness of the title derivation on ASCII names: the document `about`, with
case tables that leave every code point as it is. -/
theorem titleFragment_ascii_witness :
    titleFragment ⟨fun r => r, fun r => r⟩ (bytesOf "about") =
      some (bytesOf "Tecnologer | About") :=
  (titleFragment_ascii _ 0x61 (bytesOf "bout") (by decide) (by decide)).1

/-- The document `about` gets the title `Tecnologer | About`, whatever the
Unicode case tables. -/
theorem titleFragment_about (tb : CaseTables) :
    titleFragment tb (bytesOf "about") = some (bytesOf "Tecnologer | About") := by
  have hname : bytesOf "about" = 0x61 :: bytesOf "bout" := by decide
  have hup : stringsToUpper tb [0x61] = [0x41] := by
    rw [stringsToUpper_ascii tb [0x61] (by decide)]; rfl
  have hlo : stringsToLower tb (bytesOf "bout") = bytesOf "bout" := by
    rw [stringsToLower_ascii tb (bytesOf "bout") (by decide)]; decide
  rw [hname]
  simp only [titleFragment, titlePage, stringOfByte_ascii 0x61 (by decide), hup, hlo,
    Option.map_some']
  decide

theorem extFrom_suffix (r acc : Bytes) : extFrom r acc <:+ r.reverse ++ acc := by
  induction r generalizing acc with
  | nil => exact List.nil_suffix
  | cons c cs ih =>
    unfold extFrom
    split
    · exact List.nil_suffix
    · split
      · rw [List.reverse_cons, List.append_assoc]
        exact List.suffix_append _ _
      · have := ih (c :: acc)
        simpa [List.reverse_cons, List.append_assoc] using this

theorem Ext_suffix (path : Bytes) : Ext path <:+ path := by
  have := extFrom_suffix path.reverse []
  simpa [Ext] using this

/-- Every directory entry that `getSourceFiles` accepts, other than the entry
`.go` itself, gets a non-empty document name, so that `file.name[0]` and
`file.name[1:]` are defined and `main` derives a title for it. -/
theorem accepted_name_nonempty (tb : CaseTables) (name : Bytes)
    (hext : Ext name = bytesOf ".go") (hne : name ≠ bytesOf ".go") :
    name.take (name.length - 3) ≠ [] ∧
    (titlePage tb (name.take (name.length - 3))).isSome = true := by
  have hsuf : bytesOf ".go" <:+ name := hext ▸ Ext_suffix name
  obtain ⟨pre, hpre⟩ := hsuf
  have hlen : (bytesOf ".go").length = 3 := by decide
  have hpre_ne : pre ≠ [] := by
    rintro rfl
    exact hne (by simpa using hpre.symm)
  have htake : name.take (name.length - 3) = pre := by
    rw [← hpre, List.length_append, hlen, Nat.add_sub_cancel, List.take_left]
  rw [htake]
  refine ⟨hpre_ne, ?_⟩
  cases pre with
  | nil => exact absurd rfl hpre_ne
  | cons b rest => rfl

/-- Witness of the accepted names: the entry `me.go`. -/
theorem accepted_name_nonempty_witness :
    (bytesOf "me.go").take ((bytesOf "me.go").length - 3) ≠ [] ∧
    (titlePage ⟨fun r => r, fun r => r⟩
      ((bytesOf "me.go").take ((bytesOf "me.go").length - 3))).isSome = true :=
  accepted_name_nonempty _ _ (by decide) (by decide)

end Portfolio
